import Mathlib

/-!
Verification of the scheduling / date-normalization and calendar-aggregation
core of the social-post approval board (`src/app/page.tsx`).

JavaScript strings are modelled as `List Char`; a JavaScript `Date` value is
modelled as `Option Int` — `none` is the invalid date (`new Date(NaN)`), and
`some t` holds the timestamp in minutes since the local epoch
1970-01-01T00:00 (the app never uses seconds or milliseconds).  The calendar
arithmetic of the ECMAScript `Date` constructor, `setDate`, `setMonth`,
`setHours` and the component getters is modelled on the proleptic Gregorian
calendar (`MakeDay` / `DateFromTime` of ECMA-262), with no time-zone offsets:
the app deliberately parses and formats wall-clock local values on both
sides, so local-time conversions cancel throughout.
-/

/-- JavaScript strings are modelled as lists of characters. -/
abbrev Str := List Char

/-- Shorthand for turning a Lean string literal into the model type. -/
def str (s : String) : Str := s.toList

/-! ## Generic string helpers (models of the JS string methods used) -/

/-- `s.split(sep)` for a one-character separator, as in the source's
`str.split("T")`, `ymd.split("-")`, `hm.split(":")`.  JS semantics: the
result always has at least one element, and `"".split(sep) = [""]`. -/
def splitCh (sep : Char) : Str → List Str
  | [] => [[]]
  | c :: cs =>
    if c = sep then [] :: splitCh sep cs
    else
      match splitCh sep cs with
      | [] => [[c]]
      | g :: gs => (c :: g) :: gs

/-- Numeric value of the decimal digit prefix of a string (accumulator fold),
used by the `parseInt(n, 10)` model. -/
def natFromDigits (ds : Str) : Nat := ds.foldl (fun a c => a * 10 + (c.toNat - 48)) 0

/-- The maximal decimal-digit prefix of a string, as a number; `none` when the
string does not start with a digit (JS `NaN`). -/
def parseLeadingDigits (s : Str) : Option Nat :=
  let ds := s.takeWhile Char.isDigit
  if ds = [] then none else some (natFromDigits ds)

/-- Model of `parseInt(s, 10)`: skip leading whitespace, optional sign, then
read the maximal digit prefix; `none` models the JS `NaN` result. -/
def jsParseInt (s : Str) : Option Int :=
  let t := s.dropWhile Char.isWhitespace
  match t with
  | [] => none
  | c :: rest =>
    if c = '-' then (parseLeadingDigits rest).map (fun n => -(n : Int))
    else if c = '+' then (parseLeadingDigits rest).map (fun n => (n : Int))
    else (parseLeadingDigits (c :: rest)).map (fun n => (n : Int))

/-- The character of a decimal digit. -/
def digitChar : Nat → Char
  | 0 => '0' | 1 => '1' | 2 => '2' | 3 => '3' | 4 => '4'
  | 5 => '5' | 6 => '6' | 7 => '7' | 8 => '8' | _ => '9'

/-- Decimal digit list of a natural number (the value of the JS template
conversion `${n}` / `String(n)` for non-negative integers).  Structural
recursion on a fuel argument so that the kernel can evaluate it. -/
def natDigitsF : Nat → Nat → Str
  | 0, _ => []
  | f + 1, n =>
    if n < 10 then [digitChar n]
    else natDigitsF f (n / 10) ++ [digitChar (n % 10)]

/-- Decimal digit list of a natural number. -/
def natDigits (n : Nat) : Str := natDigitsF (n + 1) n

/-- Model of the JS number-to-string conversion for integers. -/
def intToStr (i : Int) : Str :=
  if i < 0 then '-' :: natDigits (-i).toNat else natDigits i.toNat

/-- `s.padStart(2, "0")`, as used for the month and day fields of a day key. -/
def padStart2 (s : Str) : Str :=
  if s.length < 2 then List.replicate (2 - s.length) '0' ++ s else s

/-- `xs.join(sep)` (JS array join). -/
def joinWith (sep : Str) : List Str → Str
  | [] => []
  | [x] => x
  | x :: rest => x ++ sep ++ joinWith sep rest

/-- `s.toLowerCase()` (ASCII case folding, the fragment exercised here). -/
def toLowerStr (s : Str) : Str := s.map Char.toLower

/-- `s.trim()`: strip whitespace from both ends. -/
def trimStr (s : Str) : Str :=
  ((s.dropWhile Char.isWhitespace).reverse.dropWhile Char.isWhitespace).reverse

/-- `hay.includes(q)`: substring containment. -/
def containsSub (hay q : Str) : Bool :=
  if q.isPrefixOf hay then true
  else
    match hay with
    | [] => false
    | _ :: t => containsSub t q

/-- JS truthiness of an optional string (`undefined`/`null` and `""` are
falsy). -/
def jsTruthy : Option Str → Bool
  | none => false
  | some s => !(s = [] : Bool)

/-- `x || dflt` on an optional string. -/
def jsOrStr (o : Option Str) (dflt : Str) : Str :=
  match o with
  | none => dflt
  | some s => if s = [] then dflt else s

/-- `x || dflt` on a JS number that may be `NaN` (`none`); note that a `0`
value is falsy and also falls back to the default, exactly as in JS. -/
def jsOrNum (o : Option Int) (dflt : Int) : Int :=
  match o with
  | none => dflt
  | some v => if v = 0 then dflt else v

/-! ## Proleptic Gregorian day arithmetic

`daysFromCivil` / `civilFromDays` convert between a civil date and its day
number relative to 1970-01-01 (the `MakeDay` / `YearFromTime`-`MonthFromTime`-
`DateFromTime` pair of ECMA-262, restricted to local wall-clock time).  The
closed forms are the standard era-based ones; `/` and `%` on `Int` are
Euclidean, which agrees with the floor operations of the algorithm because
every divisor is positive. -/

/-- Day number (days since 1970-01-01) of the civil date `y-m-d`, for
`1 ≤ m ≤ 12`. -/
def daysFromCivil (y m d : Int) : Int :=
  let y' := if m ≤ 2 then y - 1 else y
  let era := y' / 400
  let yoe := y' - era * 400
  let mp := (m + 9) % 12
  let doy := (153 * mp + 2) / 5 + d - 1
  let doe := yoe * 365 + yoe / 4 - yoe / 100 + doy
  era * 146097 + doe - 719468

/-- Civil date `(y, m, d)` of a day number (days since 1970-01-01). -/
def civilFromDays (z : Int) : Int × Int × Int :=
  let z' := z + 719468
  let era := z' / 146097
  let doe := z' - era * 146097
  let yoe := (doe - doe / 1460 + doe / 36524 - doe / 146096) / 365
  let y := yoe + era * 400
  let doy := doe - (365 * yoe + yoe / 4 - yoe / 100)
  let mp := (5 * doy + 2) / 153
  let d := doy - (153 * mp + 2) / 5 + 1
  let m := if mp < 10 then mp + 3 else mp - 9
  (if m ≤ 2 then y + 1 else y, m, d)

/-- Gregorian leap-year test. -/
def isLeap (y : Int) : Bool := y % 4 = 0 ∧ (y % 100 ≠ 0 ∨ y % 400 = 0)

/-- Number of days in month `m` of year `y`. -/
def daysInMonth (y m : Int) : Int :=
  if m = 2 then (if isLeap y then 29 else 28)
  else if m = 4 ∨ m = 6 ∨ m = 9 ∨ m = 11 then 30
  else 31

/-! ### Round-trip lemmas for the civil-date conversions -/

/-- The year-of-era extraction formula recovers `yoe` from
`doe = 365 yoe + yoe/4 - yoe/100 + doy` whenever `doy` is a valid day within
the (March-based) year of era `yoe`. -/
theorem yoe_formula_eq (yoe doy : Int) (h0 : 0 ≤ yoe) (h1 : yoe ≤ 399)
    (hd0 : 0 ≤ doy)
    (hd1 : doy ≤ 364 ∨ (doy = 365 ∧ (yoe + 1) % 4 = 0 ∧ ((yoe + 1) % 100 ≠ 0 ∨ yoe = 399))) :
    ((365 * yoe + yoe / 4 - yoe / 100 + doy)
        - (365 * yoe + yoe / 4 - yoe / 100 + doy) / 1460
        + (365 * yoe + yoe / 4 - yoe / 100 + doy) / 36524
        - (365 * yoe + yoe / 4 - yoe / 100 + doy) / 146096) / 365 = yoe := by
  set doe := 365 * yoe + yoe / 4 - yoe / 100 + doy with hdoe
  set c := yoe / 100 with hc
  set r := yoe % 100 with hr
  set q := r / 4 with hq
  set s := r % 4 with hs
  have hyoe : yoe = 100 * c + r := by omega
  have hr4 : yoe / 4 = 25 * c + q := by omega
  have hdec : doe = 1460 * (25 * c + q) + (24 * c + 365 * s + q + doy) := by omega
  have hcr : 0 ≤ c ∧ c ≤ 3 ∧ 0 ≤ r ∧ r ≤ 99 ∧ 0 ≤ q ∧ q ≤ 24 ∧ 0 ≤ s ∧ s ≤ 3 := by omega
  rcases eq_or_ne doe 146096 with hmax | hmax
  · omega
  · have h146096 : doe / 146096 = 0 := by omega
    have hre : doe = 36524 * c + 365 * r + q + doy := by omega
    have hedge : doy ≤ 364 ∨ r ≤ 98 := by
      rcases hd1 with h | ⟨h365, h4, h100⟩
      · exact Or.inl h
      · rcases h100 with h100 | h399
        · right; omega
        · left; omega
    have h36524 : doe / 36524 = c := by omega
    omega

/-- Every day-of-era `0 ≤ n ≤ 146096` decomposes as a valid
(year-of-era, day-of-year) pair. -/
theorem exists_yoe_decomp : ∀ n : Nat, n ≤ 146096 →
    ∃ yoe doy : Int, 0 ≤ yoe ∧ yoe ≤ 399 ∧ 0 ≤ doy ∧
      (doy ≤ 364 ∨ (doy = 365 ∧ (yoe + 1) % 4 = 0 ∧ ((yoe + 1) % 100 ≠ 0 ∨ yoe = 399))) ∧
      (n : Int) = 365 * yoe + yoe / 4 - yoe / 100 + doy := by
  intro n
  induction n with
  | zero => intro _; exact ⟨0, 0, by norm_num⟩
  | succ n ih =>
    intro hle
    obtain ⟨yoe, doy, h0, h1, h2, h3, h4⟩ := ih (by omega)
    have hq4 : yoe / 4 * 4 ≤ yoe ∧ yoe < yoe / 4 * 4 + 4 := by omega
    have hq100 : yoe / 100 * 100 ≤ yoe ∧ yoe < yoe / 100 * 100 + 100 := by omega
    by_cases hmid : doy ≤ 363
    · exact ⟨yoe, doy + 1, h0, h1, by omega, by omega, by push_cast; omega⟩
    by_cases hleap : (yoe + 1) % 4 = 0 ∧ ((yoe + 1) % 100 ≠ 0 ∨ yoe = 399)
    · by_cases h365 : doy ≤ 364
      · exact ⟨yoe, doy + 1, h0, h1, by omega, Or.inr ⟨by omega, hleap⟩, by push_cast; omega⟩
      · have hdoy : doy = 365 := by
          rcases h3 with h | ⟨h, _⟩ <;> omega
        have hy399 : yoe ≠ 399 := by
          intro hy
          subst hy
          push_cast at h4
          omega
        refine ⟨yoe + 1, 0, by omega, by omega, le_refl 0, Or.inl (by norm_num), ?_⟩
        push_cast at h4 ⊢
        obtain ⟨hl4, hl100⟩ := hleap
        have hstep4 : (yoe + 1) / 4 = yoe / 4 + 1 := by omega
        have hstep100 : (yoe + 1) / 100 = yoe / 100 + (if (yoe + 1) % 100 = 0 then 1 else 0) := by
          split <;> omega
        rcases hl100 with h | h
        · rw [if_neg h] at hstep100
          omega
        · exact absurd h hy399
    · have hdoy : doy = 364 := by
        rcases h3 with h | ⟨h, hp⟩
        · omega
        · exact absurd hp hleap
      refine ⟨yoe + 1, 0, by omega, ?_, le_refl 0, Or.inl (by norm_num), ?_⟩
      · by_contra hy
        have : yoe = 399 := by omega
        subst this
        exact hleap ⟨by norm_num, Or.inr rfl⟩
      · push_cast at h4 ⊢
        by_cases hl4 : (yoe + 1) % 4 = 0
        · have hl100 : (yoe + 1) % 100 = 0 := by
            by_contra hc
            exact hleap ⟨hl4, Or.inl hc⟩
          have hstep4 : (yoe + 1) / 4 = yoe / 4 + 1 := by omega
          have hstep100 : (yoe + 1) / 100 = yoe / 100 + 1 := by omega
          omega
        · have hstep4 : (yoe + 1) / 4 = yoe / 4 := by omega
          have hstep100 : (yoe + 1) / 100 = yoe / 100 := by omega
          omega

/-- Within-year month/day encoding round-trip (March-based month index). -/
theorem month_roundtrip (mp d : Int) (hmp1 : 0 ≤ mp) (hmp2 : mp ≤ 11) (hd1 : 1 ≤ d)
    (hd2 : d ≤ 31) (h30 : mp = 1 ∨ mp = 3 ∨ mp = 6 ∨ mp = 8 → d ≤ 30)
    (h29 : mp = 11 → d ≤ 29) :
    (5 * ((153 * mp + 2) / 5 + d - 1) + 2) / 153 = mp := by
  interval_cases mp <;> omega



theorem civilFromDays_decomp (era yoe doy mp d : Int)
    (hyoe : 0 ≤ yoe ∧ yoe ≤ 399)
    (hdoy : 0 ≤ doy ∧
      (doy ≤ 364 ∨ (doy = 365 ∧ (yoe + 1) % 4 = 0 ∧ ((yoe + 1) % 100 ≠ 0 ∨ yoe = 399))))
    (hmp : 0 ≤ mp ∧ mp ≤ 11)
    (hd : doy = (153 * mp + 2) / 5 + d - 1)
    (hdmp : (5 * doy + 2) / 153 = mp) :
    civilFromDays (era * 146097 + (yoe * 365 + yoe / 4 - yoe / 100 + doy) - 719468)
      = (yoe + era * 400 + (if mp < 10 then 0 else 1),
         (if mp < 10 then mp + 3 else mp - 9), d) := by
  have hyoe4 : yoe / 4 * 4 ≤ yoe ∧ yoe < yoe / 4 * 4 + 4 := by omega
  have hyoe100 : yoe / 100 * 100 ≤ yoe ∧ yoe < yoe / 100 * 100 + 100 := by omega
  have hdoe : 0 ≤ yoe * 365 + yoe / 4 - yoe / 100 + doy ∧
      yoe * 365 + yoe / 4 - yoe / 100 + doy ≤ 146096 := by omega
  have hyf := yoe_formula_eq yoe doy hyoe.1 hyoe.2 hdoy.1 hdoy.2
  simp only [civilFromDays]
  have hz' : era * 146097 + (yoe * 365 + yoe / 4 - yoe / 100 + doy) - 719468 + 719468
      = era * 146097 + (yoe * 365 + yoe / 4 - yoe / 100 + doy) := by ring
  simp only [hz']
  have hera : (era * 146097 + (yoe * 365 + yoe / 4 - yoe / 100 + doy)) / 146097 = era := by
    omega
  simp only [hera]
  have hdoe2 : era * 146097 + (yoe * 365 + yoe / 4 - yoe / 100 + doy) - era * 146097
      = yoe * 365 + yoe / 4 - yoe / 100 + doy := by ring
  simp only [hdoe2]
  have hcomm : yoe * 365 = 365 * yoe := by ring
  simp only [hcomm, hyf]
  have hdoy2 : 365 * yoe + yoe / 4 - yoe / 100 + doy - (365 * yoe + yoe / 4 - yoe / 100)
      = doy := by ring
  simp only [hdoy2, hdmp]
  have hd' : doy - (153 * mp + 2) / 5 + 1 = d := by omega
  simp only [hd']
  split_ifs <;> simp only [Prod.mk.injEq, and_true] <;> omega

theorem civilFromDays_daysFromCivil (y m d : Int)
    (hm1 : 1 ≤ m) (hm2 : m ≤ 12) (hd1 : 1 ≤ d) (hd2 : d ≤ daysInMonth y m) :
    civilFromDays (daysFromCivil y m d) = (y, m, d) := by
  have hleap : isLeap y = true ↔ (y % 4 = 0 ∧ (y % 100 ≠ 0 ∨ y % 400 = 0)) := by
    simp [isLeap]
  set y' := if m ≤ 2 then y - 1 else y with hy'
  set era := y' / 400 with hera
  set yoe := y' - era * 400 with hyoe
  set mp := (m + 9) % 12 with hmp
  set doy := (153 * mp + 2) / 5 + d - 1 with hdoy
  have hy'cases : y' = y - 1 ∧ m ≤ 2 ∨ y' = y ∧ 2 < m := by
    rw [hy']; split_ifs with h
    · exact Or.inl ⟨rfl, h⟩
    · exact Or.inr ⟨rfl, by omega⟩
  have hyoeb : 0 ≤ yoe ∧ yoe ≤ 399 := by omega
  have hmpb : 0 ≤ mp ∧ mp ≤ 11 := by omega
  have hmpm : (m ≤ 2 ∧ mp = m + 9) ∨ (2 < m ∧ mp = m - 3) := by omega
  -- translate the month-length bound
  have hdm : d ≤ 31 ∧ ((mp = 1 ∨ mp = 3 ∨ mp = 6 ∨ mp = 8) → d ≤ 30) ∧
      (mp = 11 → d ≤ if isLeap y then 29 else 28) := by
    simp only [daysInMonth] at hd2
    split_ifs at hd2 with h2 hl h30
    · exact ⟨by omega, by omega, fun _ => by rw [if_pos hl]; exact hd2⟩
    · exact ⟨by omega, by omega, fun _ => by rw [if_neg hl]; exact hd2⟩
    · exact ⟨by omega, by omega, fun h => absurd h (by omega)⟩
    · exact ⟨hd2, by omega, fun h => absurd h (by omega)⟩
  have hdoyb : 0 ≤ doy ∧
      (doy ≤ 364 ∨ (doy = 365 ∧ (yoe + 1) % 4 = 0 ∧ ((yoe + 1) % 100 ≠ 0 ∨ yoe = 399))) := by
    refine ⟨by omega, ?_⟩
    rcases hmpm with ⟨hm2', hmpe⟩ | ⟨hm2', hmpe⟩
    · by_cases hfeb : mp = 11
      · have hdle := hdm.2.2 hfeb
        by_cases hl : isLeap y = true
        · rw [if_pos hl] at hdle
          rw [hleap] at hl
          have hyrel : y = era * 400 + yoe + 1 := by omega
          by_cases hd29 : d = 29
          · right
            refine ⟨by omega, by omega, by omega⟩
          · left; omega
        · rw [if_neg hl] at hdle
          left; omega
      · left; omega
    · left
      have h30' := hdm.2.1
      have hd31 := hdm.1
      omega
  have hmonth : (5 * doy + 2) / 153 = mp := by
    apply month_roundtrip mp d hmpb.1 hmpb.2 hd1 hdm.1 hdm.2.1
    intro h11
    have := hdm.2.2 h11
    split_ifs at this <;> omega
  have hinput : daysFromCivil y m d
      = era * 146097 + (yoe * 365 + yoe / 4 - yoe / 100 + doy) - 719468 := by
    simp only [daysFromCivil]
  rw [hinput, civilFromDays_decomp era yoe doy mp d hyoeb hdoyb hmpb hdoy hmonth]
  simp only [Prod.mk.injEq]
  refine ⟨?_, ?_, trivial⟩
  · split_ifs with h <;> omega
  · split_ifs with h <;> omega

theorem daysFromCivil_civilFromDays (z : Int) :
    1 ≤ (civilFromDays z).2.1 ∧ (civilFromDays z).2.1 ≤ 12 ∧
    1 ≤ (civilFromDays z).2.2 ∧ (civilFromDays z).2.2 ≤ 31 ∧
    daysFromCivil (civilFromDays z).1 (civilFromDays z).2.1 (civilFromDays z).2.2 = z := by
  set era := (z + 719468) / 146097 with hera
  set doe := z + 719468 - era * 146097 with hdoe
  have hdoeb : 0 ≤ doe ∧ doe ≤ 146096 := by omega
  obtain ⟨yoe, doy, h0, h1, h2, h3, h4⟩ := exists_yoe_decomp doe.toNat (by omega)
  have hcast : (doe.toNat : Int) = doe := by omega
  rw [hcast] at h4
  set mp := (5 * doy + 2) / 153 with hmp
  set d := doy - (153 * mp + 2) / 5 + 1 with hd
  have hdoyub : doy ≤ 365 := by
    rcases h3 with h | ⟨h, _⟩ <;> omega
  have hmpb : 0 ≤ mp ∧ mp ≤ 11 := by omega
  have hdrel : doy = (153 * mp + 2) / 5 + d - 1 := by omega
  have hz : z = era * 146097 + (yoe * 365 + yoe / 4 - yoe / 100 + doy) - 719468 := by omega
  have hciv := civilFromDays_decomp era yoe doy mp d ⟨h0, h1⟩ ⟨h2, h3⟩ hmpb hdrel rfl
  rw [← hz] at hciv
  rw [hciv]
  dsimp only
  have hdb : 1 ≤ d ∧ d ≤ 31 := by omega
  refine ⟨?_, ?_, hdb.1, hdb.2, ?_⟩
  · split_ifs <;> omega
  · split_ifs <;> omega
  · rcases lt_or_ge mp 10 with hm10 | hm10
    · rw [if_pos hm10, if_pos hm10]
      simp only [daysFromCivil]
      rw [if_neg (by omega : ¬ (mp + 3 ≤ 2))]
      have hmod : (mp + 3 + 9) % 12 = mp := by omega
      simp only [hmod]
      have hY : (yoe + era * 400 + 0) / 400 = era := by omega
      simp only [hY]
      have hyoe' : yoe + era * 400 + 0 - era * 400 = yoe := by ring
      simp only [hyoe']
      omega
    · rw [if_neg (by omega : ¬ mp < 10), if_neg (by omega : ¬ mp < 10)]
      simp only [daysFromCivil]
      rw [if_pos (by omega : mp - 9 ≤ 2)]
      have hmod : (mp - 9 + 9) % 12 = mp := by omega
      simp only [hmod]
      have hY : (yoe + era * 400 + 1 - 1) / 400 = era := by omega
      simp only [hY]
      have hyoe' : yoe + era * 400 + 1 - 1 - era * 400 = yoe := by ring
      simp only [hyoe']
      omega

/-! ## The JS `Date` model

`none` is the invalid date; a valid date is its timestamp in minutes since
the local epoch (the app only ever constructs dates with zero seconds and
milliseconds). -/

/-- A JS `Date` value. -/
abbrev JSDate := Option Int

/-- ECMA `Day(t)`: the day number containing timestamp `t` (floor). -/
def epochDay (t : Int) : Int := t / 1440

/-- `d.getFullYear()`. -/
def getFullYear (t : Int) : Int := (civilFromDays (epochDay t)).1

/-- `d.getMonth()` (0-based month). -/
def getMonth (t : Int) : Int := (civilFromDays (epochDay t)).2.1 - 1

/-- `d.getDate()` (1-based day of month). -/
def getDate (t : Int) : Int := (civilFromDays (epochDay t)).2.2

/-- `d.getDay()` (weekday, Sunday = 0); 1970-01-01 was a Thursday. -/
def getDay (t : Int) : Int := (epochDay t + 4) % 7

/-- `d.getHours()`. -/
def getHours (t : Int) : Int := t % 1440 / 60

/-- `d.getMinutes()`. -/
def getMinutes (t : Int) : Int := t % 60

/-- ECMA `MakeDay` + `MakeDate` with an hour/minute time: the month index
normalizes into the year, the day offsets from day 1 of the resulting month.
This is the arithmetic shared by the constructor and the `set*` methods; the
two-digit-year rule belongs to the constructor only. -/
def rawMakeDate (y mIdx d hh mi : Int) : Int :=
  let ym := y * 12 + mIdx
  (daysFromCivil (ym / 12) (ym % 12 + 1) 1 + (d - 1)) * 1440 + (hh * 60 + mi)

/-- `new Date(y, mIdx, d, hh, mi)`: ECMA `MakeFullYear` maps year values
0..99 to 1900..1999. -/
def jsDateCtor (y mIdx d hh mi : Int) : Int :=
  rawMakeDate (if 0 ≤ y ∧ y ≤ 99 then y + 1900 else y) mIdx d hh mi

/-- `t.setDate(n)` (keeps the time of day). -/
def setDate (t n : Int) : Int :=
  rawMakeDate (getFullYear t) (getMonth t) n (getHours t) (getMinutes t)

/-- `t.setMonth(m)` (keeps day-of-month and time of day). -/
def setMonth (t m : Int) : Int :=
  rawMakeDate (getFullYear t) m (getDate t) (getHours t) (getMinutes t)

/-- `t.setHours(0, 0, 0, 0)`. -/
def setHoursZero (t : Int) : Int := epochDay t * 1440

/-! ### Basic facts about the date model -/

theorem daysFromCivil_day_linear (y m d : Int) :
    daysFromCivil y m d = daysFromCivil y m 1 + d - 1 := by
  simp only [daysFromCivil]
  ring

theorem epochDay_split (days rem : Int) (h0 : 0 ≤ rem) (h1 : rem < 1440) :
    epochDay (days * 1440 + rem) = days := by
  simp only [epochDay]
  omega

theorem timeOfDay_eq (t : Int) :
    getHours t * 60 + getMinutes t = t % 1440 := by
  simp only [getHours, getMinutes]
  omega

/-- `daysInMonth` is always at least 28 (and at most 31). -/
theorem daysInMonth_bounds (y m : Int) : 28 ≤ daysInMonth y m ∧ daysInMonth y m ≤ 31 := by
  simp only [daysInMonth]
  split_ifs <;> omega

/-- The components read back from a timestamp form a valid civil date whose
day number is the timestamp's day. -/
theorem getters_valid (t : Int) :
    1 ≤ getMonth t + 1 ∧ getMonth t + 1 ≤ 12 ∧ 1 ≤ getDate t ∧ getDate t ≤ 31 ∧
      daysFromCivil (getFullYear t) (getMonth t + 1) (getDate t) = epochDay t := by
  have h := daysFromCivil_civilFromDays (epochDay t)
  simp only [getFullYear, getMonth, getDate]
  refine ⟨by omega, by omega, h.2.2.1, h.2.2.2.1, ?_⟩
  have : (civilFromDays (epochDay t)).2.1 - 1 + 1 = (civilFromDays (epochDay t)).2.1 := by ring
  rw [this]
  exact h.2.2.2.2

/-- Day number of a `rawMakeDate` result. -/
theorem rawMakeDate_epochDay (y mIdx d hh mi : Int)
    (h0 : 0 ≤ hh * 60 + mi) (h1 : hh * 60 + mi < 1440) :
    epochDay (rawMakeDate y mIdx d hh mi)
      = daysFromCivil ((y * 12 + mIdx) / 12) ((y * 12 + mIdx) % 12 + 1) 1 + (d - 1) := by
  simp only [rawMakeDate]
  exact epochDay_split _ _ h0 h1

/-- `setDate` shifts the day number by the difference of day-of-month values
and keeps the time of day. -/
theorem setDate_epochDay (t n : Int) :
    epochDay (setDate t n) = epochDay t + (n - getDate t) := by
  have hg := getters_valid t
  have htod := timeOfDay_eq t
  have hb : 0 ≤ getHours t * 60 + getMinutes t ∧ getHours t * 60 + getMinutes t < 1440 := by
    omega
  simp only [setDate]
  rw [rawMakeDate_epochDay _ _ _ _ _ hb.1 hb.2]
  have hym : (getFullYear t * 12 + getMonth t) / 12 = getFullYear t := by omega
  have hym2 : (getFullYear t * 12 + getMonth t) % 12 = getMonth t := by omega
  rw [hym, hym2]
  have := daysFromCivil_day_linear (getFullYear t) (getMonth t + 1) (getDate t)
  omega

/-- Civil components of a `rawMakeDate` result, when the day-of-month fits in
every month. -/
theorem rawMakeDate_civil (y mIdx d hh mi : Int)
    (h0 : 0 ≤ hh * 60 + mi) (h1 : hh * 60 + mi < 1440)
    (hd1 : 1 ≤ d) (hd2 : d ≤ 28) :
    civilFromDays (epochDay (rawMakeDate y mIdx d hh mi))
      = ((y * 12 + mIdx) / 12, (y * 12 + mIdx) % 12 + 1, d) := by
  rw [rawMakeDate_epochDay _ _ _ _ _ h0 h1]
  have hlin := daysFromCivil_day_linear ((y * 12 + mIdx) / 12) ((y * 12 + mIdx) % 12 + 1) d
  rw [show daysFromCivil ((y * 12 + mIdx) / 12) ((y * 12 + mIdx) % 12 + 1) 1 + (d - 1)
      = daysFromCivil ((y * 12 + mIdx) / 12) ((y * 12 + mIdx) % 12 + 1) d from by omega]
  apply civilFromDays_daysFromCivil
  · omega
  · omega
  · omega
  · have := daysInMonth_bounds ((y * 12 + mIdx) / 12) ((y * 12 + mIdx) % 12 + 1)
    omega

/-- A constructor call for day 1 of a month lands exactly on day 1 of the
requested month (after the 0..99 → 1900..1999 year adjustment). -/
theorem jsDateCtor_first (y mIdx : Int) :
    getFullYear (jsDateCtor y mIdx 1 0 0) * 12 + getMonth (jsDateCtor y mIdx 1 0 0)
      = (if 0 ≤ y ∧ y ≤ 99 then y + 1900 else y) * 12 + mIdx
    ∧ getDate (jsDateCtor y mIdx 1 0 0) = 1 := by
  simp only [jsDateCtor, getFullYear, getMonth, getDate]
  set Y := if 0 ≤ y ∧ y ≤ 99 then y + 1900 else y with hY
  rw [rawMakeDate_civil Y mIdx 1 0 0 (by norm_num) (by norm_num) (le_refl 1) (by norm_num)]
  dsimp only
  omega

/-- `setMonth` on a date whose day-of-month is at most 28 lands on the same
day-of-month of the requested month. -/
theorem setMonth_civil (t m : Int) (hd : getDate t ≤ 28) :
    civilFromDays (epochDay (setMonth t m))
      = ((getFullYear t * 12 + m) / 12, (getFullYear t * 12 + m) % 12 + 1, getDate t) := by
  have hg := getters_valid t
  have htod := timeOfDay_eq t
  simp only [setMonth]
  exact rawMakeDate_civil _ _ _ _ _ (by omega) (by omega) (by omega) hd

/-! ## Calendar navigation helpers of `src/app/page.tsx` -/

/-- `startOfWeek(d)`: step back `(getDay + 6) % 7` days (Monday-start week),
then zero the time of day. -/
def startOfWeek (t : Int) : Int :=
  let day := (getDay t + 6) % 7
  setHoursZero (setDate t (getDate t - day))

/-- `addMonths(d, delta)`: shift the month, then normalize to day 1 of the
resulting month. -/
def addMonths (t delta : Int) : Int :=
  let out := setMonth t (getMonth t + delta)
  jsDateCtor (getFullYear out) (getMonth out) 1 0 0

/-- `chunk(arr, size)`: split a list into consecutive slices of `size`
elements (the source only calls it with sizes 2 and 7; for `size = 0` the
source would not terminate, the model returns `[]`). -/
def chunk {α : Type} : List α → Nat → List (List α)
  | [], _ => []
  | _ :: _, 0 => []
  | a :: rest, n + 1 => (a :: rest).take (n + 1) :: chunk ((a :: rest).drop (n + 1)) (n + 1)
termination_by arr _ => arr.length
decreasing_by
  simp only [List.drop_succ_cons, List.length_drop, List.length_cons]
  omega

/-- The `weeks` grid of `CalendarView`: 42 consecutive days starting at the
Monday on or before the first day of the cursor's month, in rows of 7. -/
def weeks (cursor : Int) : List (List Int) :=
  let year := getFullYear cursor
  let month := getMonth cursor
  let first := jsDateCtor year month 1 0 0
  let start := startOfWeek first
  let days := (List.range 42).map (fun i => setDate start (getDate start + Int.ofNat i))
  chunk days 7

/-! ## LocalDateCodec of `src/app/page.tsx` -/

/-- JS number-to-string coercion, with `NaN` printing as `"NaN"`. -/
def jsNumToStr (o : Option Int) : Str :=
  match o with
  | none => str "NaN"
  | some v => intToStr v

/-- `parseLocalDateTime(str)` (lines 97–103): split into date and optional
time part, `parseInt` each field, and build a local `Date`; the empty string
yields the invalid date. -/
def parseLocalDateTime (s : Str) : JSDate :=
  if s = [] then none
  else
    let parts := splitCh 'T' s
    let ymd := parts.headD []
    let hm := (parts.drop 1).headD (str "00:00")
    let dnums := (splitCh '-' ymd).map jsParseInt
    let tnums := (splitCh ':' hm).map jsParseInt
    let y := dnums.headD none
    let m := (dnums.drop 1).headD none
    let d := (dnums.drop 2).headD none
    let hh := tnums.headD none
    let mi := (tnums.drop 1).headD none
    match y with
    | none => none
    | some yv =>
      some (jsDateCtor yv (jsOrNum m 1 - 1) (jsOrNum d 1) (jsOrNum hh 0) (jsOrNum mi 0))

/-- `dateKeyLocal(d)` (lines 104–109): `y-MM-DD` with 2-padded month and day
from the date's own local components. -/
def dateKeyLocal (t : JSDate) : Str :=
  let y := jsNumToStr (t.map getFullYear)
  let m := padStart2 (jsNumToStr (t.map (fun tt => getMonth tt + 1)))
  let d := padStart2 (jsNumToStr (t.map getDate))
  y ++ '-' :: m ++ '-' :: d

/-- `dateKeyFromLocalString(str)` (lines 110–112). -/
def dateKeyFromLocalString (s : Str) : Str := dateKeyLocal (parseLocalDateTime s)

/-! ## Data model of `src/app/page.tsx` -/

/-- The five platforms (`PLATFORMS` constant, in source order). -/
inductive Platform : Type
  | instagram
  | facebook
  | x
  | linkedin
  | tiktok
deriving DecidableEq

open Platform in
/-- `PLATFORMS = ["Instagram", "Facebook", "X", "LinkedIn", "TikTok"]`. -/
def PLATFORMS : List Platform := [instagram, facebook, x, linkedin, tiktok]

/-- One entry of a post's `platforms` record. -/
structure PlatformEntry where
  enabled : Bool
  caption : Str
deriving DecidableEq

/-- A `PostItem`.  The review status is kept as a raw string, as at the JS
runtime (the `Status` union type is erased), so that out-of-enumeration
values can be reasoned about; optional text fields are `Option` values. -/
structure PostItem where
  id : Str
  createdAt : Int
  imageUrl : Option Str
  imageName : Option Str
  platforms : Platform → PlatformEntry
  scheduledAt : Option Str
  owner : Option Str
  notes : Option Str
  status : Str
  tags : List Str

/-- `statusToSeverity(s)` (lines 119–127): the `switch` over the status,
with `default` (including `"Bozza"`) mapping to 0. -/
def statusToSeverity (s : Str) : Nat :=
  if s = str "Approvato" then 1
  else if s = str "In revisione" then 2
  else if s = str "Da correggere" then 3
  else 0

/-! ## FilterEngine (board filter, lines 175–185; calendar filter,
lines 220–226) -/

/-- The filter dimensions held in component state.  `none` models the
`"Tutti"` / `"Tutte"` all-pass selections and a `null` selected date. -/
structure Filters where
  query : Str
  statusFilter : Option Str
  platformFilter : Option Platform
  onlyScheduled : Bool
  selectedDate : Option Str

/-- The search haystack (line 182 and line 224, identical expressions):
image name, owner, notes, the five captions, the joined tags and the status,
joined with spaces. -/
def searchHay (it : PostItem) : Str :=
  joinWith [' ']
    ([jsOrStr it.imageName [], jsOrStr it.owner [], jsOrStr it.notes []]
      ++ PLATFORMS.map (fun p => (it.platforms p).caption)
      ++ [joinWith [' '] it.tags, it.status])

/-- The board filter predicate (lines 176–184), with the early returns
rendered as nested conditionals in source order. -/
def boardPasses (f : Filters) (it : PostItem) : Bool :=
  if (match f.statusFilter with
      | none => false
      | some s => decide (¬ it.status = s)) then false
  else if (match f.platformFilter with
      | none => false
      | some p => !(it.platforms p).enabled) then false
  else if f.onlyScheduled && !jsTruthy it.scheduledAt then false
  else if (match f.selectedDate with
      | none => false
      | some day => !decide (day = []) &&
          (match it.scheduledAt with
           | none => true
           | some sch => decide (sch = []) || decide (¬ dateKeyFromLocalString sch = day))) then false
  else
    let q := toLowerStr (trimStr f.query)
    if q = [] then true
    else containsSub (toLowerStr (searchHay it)) q

/-- `filtered` (line 175): the board view's visible posts. -/
def filteredItems (f : Filters) (items : List PostItem) : List PostItem :=
  items.filter (boardPasses f)

/-- The calendar filter predicate (lines 221–225): the same four shared
dimensions, conjunctively, without the selected-day predicate; note that the
query is used untrimmed here. -/
def calendarPasses (f : Filters) (it : PostItem) : Bool :=
  (match f.statusFilter with
   | none => true
   | some s => decide (it.status = s))
  && (match f.platformFilter with
      | none => true
      | some p => (it.platforms p).enabled)
  && (!f.onlyScheduled || jsTruthy it.scheduledAt)
  && (if ¬ f.query = [] then
        containsSub (toLowerStr (searchHay it)) (toLowerStr f.query)
      else true)

/-- `calendarItems` (line 220): the calendar view's visible posts. -/
def calendarItems (f : Filters) (items : List PostItem) : List PostItem :=
  items.filter (calendarPasses f)

/-! ## updateItem / removeItem (lines 187–192) -/

/-- A `Partial PostItem` patch: a present field overrides the post's value
under the object spread `\x7b ...it, ...patch \x7d`. -/
structure PostPatch where
  id : Option Str
  createdAt : Option Int
  imageUrl : Option (Option Str)
  imageName : Option (Option Str)
  platforms : Option (Platform → PlatformEntry)
  scheduledAt : Option (Option Str)
  owner : Option (Option Str)
  notes : Option (Option Str)
  status : Option Str
  tags : Option (List Str)

/-- The object spread `\x7b ...it, ...patch \x7d`. -/
def applyPatch (it : PostItem) (p : PostPatch) : PostItem :=
  { id := p.id.getD it.id
    createdAt := p.createdAt.getD it.createdAt
    imageUrl := p.imageUrl.getD it.imageUrl
    imageName := p.imageName.getD it.imageName
    platforms := p.platforms.getD it.platforms
    scheduledAt := p.scheduledAt.getD it.scheduledAt
    owner := p.owner.getD it.owner
    notes := p.notes.getD it.notes
    status := p.status.getD it.status
    tags := p.tags.getD it.tags }

/-- `updateItem(id, patch)` (lines 187–189). -/
def updateItem (id : Str) (patch : PostPatch) (items : List PostItem) : List PostItem :=
  items.map (fun it => if it.id = id then applyPatch it patch else it)

/-- `removeItem(id)` (lines 190–192). -/
def removeItem (id : Str) (items : List PostItem) : List PostItem :=
  items.filter (fun it => ¬ it.id = id)

/-! ## CalendarAggregator (`postsByDay`, lines 443–457) -/

/-- A day bucket: the posts of that day (in input order) and the stored
per-platform severity; an absent entry models an absent JS object key. -/
@[ext]
structure DayBucket where
  items : List PostItem
  platformSeverity : Platform → Option Nat

/-- Processing of one post's enabled platforms (lines 450–454): raise the
stored severity of each enabled platform to at least the post's severity. -/
def addToBucket (it : PostItem) (b : DayBucket) : DayBucket :=
  PLATFORMS.foldl
    (fun b p =>
      if (it.platforms p).enabled then
        { b with platformSeverity := fun p' =>
            if p' = p then
              some (max ((b.platformSeverity p).getD 0) (statusToSeverity it.status))
            else b.platformSeverity p' }
      else b)
    { b with items := b.items ++ [it] }

/-- One iteration of the aggregation loop (lines 445–455): skip unscheduled
posts, otherwise update the bucket of the post's day key. -/
def postsByDayStep (m : Str → Option DayBucket) (it : PostItem) : Str → Option DayBucket :=
  match it.scheduledAt with
  | none => m
  | some sch =>
    if sch = [] then m
    else
      let dayKey := dateKeyFromLocalString sch
      let b := addToBucket it ((m dayKey).getD ⟨[], fun _ => none⟩)
      fun k => if k = dayKey then some b else m k

/-- `postsByDay` (lines 443–457): the day-key-indexed bucket map. -/
def postsByDay (items : List PostItem) : Str → Option DayBucket :=
  items.foldl postsByDayStep (fun _ => none)

/-! ## Demo values used by concrete witnesses -/

/-- All five platforms enabled with empty captions. -/
def allEnabled : Platform → PlatformEntry := fun _ => ⟨true, []⟩

/-- A minimal post: given id, schedule and status; everything else empty. -/
def demoPost (i : Str) (sch : Option Str) (st : Str) : PostItem :=
  ⟨i, 0, none, none, allEnabled, sch, none, none, st, []⟩

/-- The all-empty patch. -/
def emptyPatch : PostPatch :=
  ⟨none, none, none, none, none, none, none, none, none, none⟩

/-- Filters that pass everything (no query, no status/platform/day selection,
scheduled-only off). -/
def allPassFilters : Filters := ⟨[], none, none, false, none⟩

/-- Filter-idempotence helper: filtering twice with one predicate equals
filtering once. -/
theorem filter_self_idem {α : Type} (p : α → Bool) (l : List α) :
    (l.filter p).filter p = l.filter p := by
  induction l with
  | nil => rfl
  | cons a t ih =>
    cases h : p a
    · simp [List.filter_cons, h, ih]
    · simp [List.filter_cons, h, ih]

/-- C4: `statusToSeverity` maps "Approvato" to 1, "In revisione" to 2,
"Da correggere" to 3 and "Bozza" to 0; it is total, always lands in
`{0, 1, 2, 3}`, and any value outside the enumeration falls back to 0. -/
theorem statusToSeverity_total :
    statusToSeverity (str "Approvato") = 1 ∧
    statusToSeverity (str "In revisione") = 2 ∧
    statusToSeverity (str "Da correggere") = 3 ∧
    statusToSeverity (str "Bozza") = 0 ∧
    (∀ s : Str, statusToSeverity s ≤ 3) ∧
    (∀ s : Str, ¬ s = str "Approvato" → ¬ s = str "In revisione" →
      ¬ s = str "Da correggere" → statusToSeverity s = 0) := by
  refine ⟨by decide, by decide, by decide, by decide, ?_, ?_⟩
  · intro s
    simp only [statusToSeverity]
    split_ifs <;> omega
  · intro s h1 h2 h3
    simp only [statusToSeverity, if_neg h1, if_neg h2, if_neg h3]

/-- Witness for C4 at the out-of-enumeration status `"Garbage"`. -/
theorem statusToSeverity_total_witness : statusToSeverity (str "Garbage") = 0 :=
  statusToSeverity_total.2.2.2.2.2 (str "Garbage") (by decide) (by decide) (by decide)

/-- C9: with the scheduled-only flag on, no post of the board's filtered
output lacks `scheduledAt`; and the board filter is idempotent for any fixed
filter settings. -/
theorem scheduledOnly_and_idempotent (f : Filters) (items : List PostItem) :
    (f.onlyScheduled = true → ∀ it ∈ filteredItems f items, ¬ it.scheduledAt = none)
    ∧ filteredItems f (filteredItems f items) = filteredItems f items := by
  constructor
  · intro hon it hmem
    have hpass : boardPasses f it = true := (List.mem_filter.mp hmem).2
    simp only [boardPasses] at hpass
    split_ifs at hpass with h1 h2 h3 h4 h5 <;>
      first
        | exact absurd hpass Bool.false_ne_true
        | (intro hnone
           apply h3
           rw [hon, hnone]
           rfl)
  · exact filter_self_idem (boardPasses f) items

/-- Witness for C9: a post scheduled for 2025-10-29 survives the
scheduled-only filter and indeed has a schedule. -/
theorem scheduledOnly_and_idempotent_witness :
    ¬ (demoPost (str "a") (some (str "2025-10-29T09:00")) (str "Bozza")).scheduledAt = none :=
  (scheduledOnly_and_idempotent ⟨[], none, none, true, none⟩
      [demoPost (str "a") (some (str "2025-10-29T09:00")) (str "Bozza")]).1
    rfl _ (List.mem_singleton.mpr rfl)

/-- C10: `updateItem` keeps length and order, leaves posts with another id
untouched, patches exactly the matched post, and unpatched fields keep their
values; `removeItem` removes exactly the posts with the given id and keeps
the rest in order. -/
theorem updateItem_removeItem_frame (id : Str) (p : PostPatch) (items : List PostItem) :
    (updateItem id p items).length = items.length
    ∧ (∀ i : Nat, ∀ it : PostItem, items[i]? = some it → ¬ it.id = id →
        (updateItem id p items)[i]? = some it)
    ∧ (∀ i : Nat, ∀ it : PostItem, items[i]? = some it → it.id = id →
        (updateItem id p items)[i]? = some (applyPatch it p))
    ∧ (∀ it : PostItem,
        (p.id = none → (applyPatch it p).id = it.id)
        ∧ (p.createdAt = none → (applyPatch it p).createdAt = it.createdAt)
        ∧ (p.imageUrl = none → (applyPatch it p).imageUrl = it.imageUrl)
        ∧ (p.imageName = none → (applyPatch it p).imageName = it.imageName)
        ∧ (p.platforms = none → (applyPatch it p).platforms = it.platforms)
        ∧ (p.scheduledAt = none → (applyPatch it p).scheduledAt = it.scheduledAt)
        ∧ (p.owner = none → (applyPatch it p).owner = it.owner)
        ∧ (p.notes = none → (applyPatch it p).notes = it.notes)
        ∧ (p.status = none → (applyPatch it p).status = it.status)
        ∧ (p.tags = none → (applyPatch it p).tags = it.tags))
    ∧ (∀ it ∈ removeItem id items, ¬ it.id = id)
    ∧ (removeItem id items).Sublist items
    ∧ (∀ it ∈ items, ¬ it.id = id → it ∈ removeItem id items) := by
  refine ⟨by simp [updateItem], ?_, ?_, ?_, ?_, ?_, ?_⟩
  · intro i it hget hne
    simp [updateItem, List.getElem?_map, hget, hne]
  · intro i it hget heq
    simp [updateItem, List.getElem?_map, hget, heq]
  · intro it
    refine ⟨?_, ?_, ?_, ?_, ?_, ?_, ?_, ?_, ?_, ?_⟩ <;>
      (intro h; simp [applyPatch, h])
  · intro it hmem
    have := (List.mem_filter.mp hmem).2
    simpa using this
  · exact List.filter_sublist items
  · intro it hmem hne
    exact List.mem_filter.mpr ⟨hmem, by simpa using hne⟩

/-- Witness for C10: updating id "a" leaves the post with id "b" unchanged. -/
theorem updateItem_removeItem_frame_witness :
    (updateItem (str "a") emptyPatch [demoPost (str "b") none (str "Bozza")])[0]?
      = some (demoPost (str "b") none (str "Bozza")) :=
  (updateItem_removeItem_frame (str "a") emptyPatch
      [demoPost (str "b") none (str "Bozza")]).2.1 0 _ rfl (by decide)

/-- C5: `parseLocalDateTime` of the empty string is the invalid date rather
than an error, and a post without a schedule (absent or empty string) never
creates or changes any bucket of the aggregation. -/
theorem unscheduled_inert :
    parseLocalDateTime [] = none
    ∧ ∀ (pre suf : List PostItem) (it : PostItem),
        (it.scheduledAt = none ∨ it.scheduledAt = some []) →
        ∀ k : Str, postsByDay (pre ++ it :: suf) k = postsByDay (pre ++ suf) k := by
  constructor
  · rfl
  · intro pre suf it hsch k
    simp only [postsByDay, List.foldl_append, List.foldl_cons]
    have hstep : postsByDayStep (List.foldl postsByDayStep (fun _ => none) pre) it
        = List.foldl postsByDayStep (fun _ => none) pre := by
      rcases hsch with h | h <;> simp [postsByDayStep, h]
    rw [hstep]

/-- Witness for C5: one unscheduled post aggregates to the empty map. -/
theorem unscheduled_inert_witness :
    postsByDay [demoPost (str "a") none (str "Bozza")] (str "2025-10-29")
      = postsByDay [] (str "2025-10-29") :=
  unscheduled_inert.2 [] [] (demoPost (str "a") none (str "Bozza"))
    (Or.inl rfl) (str "2025-10-29")

/-! ## Aggregation characterization (C2) -/

/-- The day key a post contributes to, if any: posts with an absent or empty
`scheduledAt` contribute nowhere. -/
def dayKeyOf (it : PostItem) : Option Str :=
  match it.scheduledAt with
  | none => none
  | some sch => if sch = [] then none else some (dateKeyFromLocalString sch)

/-- The posts of a collection whose day key is `k`, in input order. -/
def postsOnDay (items : List PostItem) (k : Str) : List PostItem :=
  items.filter (fun it => dayKeyOf it = some k)

/-- The posts of a list that have platform `p` enabled. -/
def enabledOn (p : Platform) (l : List PostItem) : List PostItem :=
  l.filter (fun it => (it.platforms p).enabled)

/-- Maximum status severity over a list of posts (0 for the empty list). -/
def sevMax (l : List PostItem) : Nat :=
  l.foldl (fun a it => max a (statusToSeverity it.status)) 0

/-- The inner loop body of the aggregator (one platform of one post). -/
def sevStep (it : PostItem) (b : DayBucket) (p : Platform) : DayBucket :=
  if (it.platforms p).enabled then
    { b with platformSeverity := fun p' =>
        if p' = p then
          some (max ((b.platformSeverity p).getD 0) (statusToSeverity it.status))
        else b.platformSeverity p' }
  else b

theorem addToBucket_eq_fold (it : PostItem) (b : DayBucket) :
    addToBucket it b = PLATFORMS.foldl (sevStep it) { b with items := b.items ++ [it] } := rfl

theorem sevStep_items (it : PostItem) (b : DayBucket) (p : Platform) :
    (sevStep it b p).items = b.items := by
  simp only [sevStep]
  split_ifs <;> rfl

theorem fold_sevStep_items (it : PostItem) (ps : List Platform) (b : DayBucket) :
    (ps.foldl (sevStep it) b).items = b.items := by
  induction ps generalizing b with
  | nil => rfl
  | cons q rest ih => rw [List.foldl_cons, ih, sevStep_items]

theorem sevStep_sev_other (it : PostItem) (b : DayBucket) (q p : Platform) (h : ¬ p = q) :
    (sevStep it b q).platformSeverity p = b.platformSeverity p := by
  simp only [sevStep]
  split_ifs with he
  · simp [if_neg h]
  · rfl

theorem fold_sevStep_notmem (it : PostItem) (ps : List Platform) (b : DayBucket)
    (p : Platform) (h : p ∉ ps) :
    (ps.foldl (sevStep it) b).platformSeverity p = b.platformSeverity p := by
  induction ps generalizing b with
  | nil => rfl
  | cons q rest ih =>
    rw [List.foldl_cons, ih _ (fun hm => h (List.mem_cons_of_mem q hm)),
      sevStep_sev_other it b q p (fun he => h (he ▸ List.mem_cons_self q rest))]

theorem fold_sevStep_mem (it : PostItem) (ps : List Platform) (b : DayBucket)
    (p : Platform) (hmem : p ∈ ps) (hnd : ps.Nodup) :
    (ps.foldl (sevStep it) b).platformSeverity p =
      if (it.platforms p).enabled then
        some (max ((b.platformSeverity p).getD 0) (statusToSeverity it.status))
      else b.platformSeverity p := by
  induction ps generalizing b with
  | nil => cases hmem
  | cons q rest ih =>
    rw [List.foldl_cons]
    rcases List.mem_cons.mp hmem with heq | hrest
    · subst heq
      have hnotr : p ∉ rest := (List.nodup_cons.mp hnd).1
      rw [fold_sevStep_notmem it rest _ p hnotr]
      simp only [sevStep]
      split_ifs with he
      · simp
      · rfl
    · have hne : ¬ p = q := by
        intro he
        exact (List.nodup_cons.mp hnd).1 (he ▸ hrest)
      rw [ih _ hrest (List.nodup_cons.mp hnd).2,
        sevStep_sev_other it b q p hne]

theorem addToBucket_items (it : PostItem) (b : DayBucket) :
    (addToBucket it b).items = b.items ++ [it] := by
  rw [addToBucket_eq_fold, fold_sevStep_items]

theorem addToBucket_sev (it : PostItem) (b : DayBucket) (p : Platform) :
    (addToBucket it b).platformSeverity p =
      if (it.platforms p).enabled then
        some (max ((b.platformSeverity p).getD 0) (statusToSeverity it.status))
      else b.platformSeverity p := by
  rw [addToBucket_eq_fold,
    fold_sevStep_mem it PLATFORMS _ p (by cases p <;> simp [PLATFORMS]) (by decide)]

/-- The step of the aggregation loop is the identity for posts without a
day key. -/
theorem postsByDayStep_of_none (m : Str → Option DayBucket) (it : PostItem)
    (h : dayKeyOf it = none) : postsByDayStep m it = m := by
  rcases hsch : it.scheduledAt with _ | sch
  · simp [postsByDayStep, hsch]
  · simp only [dayKeyOf, hsch] at h
    split_ifs at h with hnil
    simp [postsByDayStep, hsch, hnil]

/-- The step of the aggregation loop updates exactly the post's day key. -/
theorem postsByDayStep_of_some (m : Str → Option DayBucket) (it : PostItem) (dk k : Str)
    (h : dayKeyOf it = some dk) :
    postsByDayStep m it k
      = if k = dk then some (addToBucket it ((m dk).getD ⟨[], fun _ => none⟩)) else m k := by
  rcases hsch : it.scheduledAt with _ | sch
  · simp only [dayKeyOf, hsch] at h
    cases h
  · simp only [dayKeyOf, hsch] at h
    split_ifs at h with hnil
    injection h with h'
    subst h'
    simp [postsByDayStep, hsch, hnil]

/-- Full characterization of the aggregator output at any key. -/
theorem postsByDay_spec (items : List PostItem) (k : Str) :
    postsByDay items k =
      if (postsOnDay items k).isEmpty then none
      else some ⟨postsOnDay items k, fun p =>
        if (enabledOn p (postsOnDay items k)).isEmpty then none
        else some (sevMax (enabledOn p (postsOnDay items k)))⟩ := by
  induction items using List.reverseRecOn with
  | nil => simp [postsByDay, postsOnDay]
  | append_singleton l it ih =>
    have hsnoc : postsByDay (l ++ [it]) = postsByDayStep (postsByDay l) it := by
      simp [postsByDay, List.foldl_append]
    rw [hsnoc]
    rcases hdk : dayKeyOf it with _ | dk
    · have hpod : postsOnDay (l ++ [it]) k = postsOnDay l k := by
        simp [postsOnDay, List.filter_append, hdk]
      rw [postsByDayStep_of_none _ _ hdk, hpod, ih]
    · rw [postsByDayStep_of_some _ _ dk k hdk]
      by_cases hk : k = dk
      · subst hk
        rw [if_pos rfl]
        have hfilt : dayKeyOf it = some k := hdk
        have hpod : postsOnDay (l ++ [it]) k = postsOnDay l k ++ [it] := by
          simp [postsOnDay, List.filter_append, hfilt]
        rw [hpod, if_neg (by simp)]
        by_cases hemp : postsOnDay l k = []
        · rw [ih, if_pos (by simp [hemp]), hemp]
          simp only [Option.getD_none, List.nil_append]
          congr 1
          refine DayBucket.ext (by rw [addToBucket_items]; try rfl) ?_
          funext p
          rw [addToBucket_sev]
          dsimp only
          by_cases he : (it.platforms p).enabled
          · rw [if_pos he]
            simp [enabledOn, List.filter_cons, he, sevMax]
          · rw [if_neg he]
            simp [enabledOn, List.filter_cons, he]
        · rw [ih, if_neg (by simpa using hemp)]
          simp only [Option.getD_some]
          congr 1
          refine DayBucket.ext (by rw [addToBucket_items]; try rfl) ?_
          funext p
          rw [addToBucket_sev]
          dsimp only
          by_cases he : (it.platforms p).enabled
          · rw [if_pos he]
            have hen : enabledOn p (postsOnDay l k ++ [it])
                = enabledOn p (postsOnDay l k) ++ [it] := by
              simp [enabledOn, List.filter_append, he]
            have hsv : sevMax (enabledOn p (postsOnDay l k) ++ [it])
                = max (sevMax (enabledOn p (postsOnDay l k))) (statusToSeverity it.status) := by
              simp [sevMax, List.foldl_append]
            by_cases hpe : enabledOn p (postsOnDay l k) = []
            · rw [if_pos (by simp [hpe])]
              simp only [hen, hsv, hpe]
              simp [sevMax]
            · rw [if_neg (by simpa using hpe)]
              simp only [hen, hsv]
              simp
          · rw [if_neg he]
            have hen : enabledOn p (postsOnDay l k ++ [it])
                = enabledOn p (postsOnDay l k) := by
              simp [enabledOn, List.filter_append, he]
            simp only [hen]
      · rw [if_neg hk, ih]
        have hnk : ¬ (dayKeyOf it = some k) := by
          rw [hdk]
          intro hc
          apply hk
          injection hc with h
          exact h.symm
        have hpod : postsOnDay (l ++ [it]) k = postsOnDay l k := by
          simp [postsOnDay, List.filter_append, hnk]
        rw [hpod]

/-- C2: the aggregator maps a key to a bucket iff some input post has that
day key; the bucket holds exactly the posts of that day (so its post count
is their number); and the stored severity of a platform with at least one
enabled post in the bucket is the maximum status severity over those posts. -/
theorem calendarAggregation (items : List PostItem) (k : Str) :
    ((postsByDay items k).isSome = true ↔ ∃ it ∈ items, dayKeyOf it = some k)
    ∧ ∀ b : DayBucket, postsByDay items k = some b →
        b.items = postsOnDay items k
        ∧ b.items.length = (postsOnDay items k).length
        ∧ ∀ p : Platform, ¬ enabledOn p b.items = [] →
            b.platformSeverity p = some (sevMax (enabledOn p b.items)) := by
  constructor
  · rw [postsByDay_spec]
    by_cases hemp : (postsOnDay items k).isEmpty
    · rw [if_pos hemp]
      simp only [Option.isSome_none]
      constructor
      · intro h; cases h
      · rintro ⟨it, hmem, hkey⟩
        exfalso
        have hin : it ∈ postsOnDay items k :=
          List.mem_filter.mpr ⟨hmem, by simp [hkey]⟩
        rw [List.isEmpty_iff] at hemp
        rw [hemp] at hin
        cases hin
    · rw [if_neg hemp]
      simp only [Option.isSome_some, true_iff]
      have hne : postsOnDay items k ≠ [] := by
        simpa [List.isEmpty_iff] using hemp
      rcases List.exists_mem_of_ne_nil _ hne with ⟨it, hmem⟩
      have hm := List.mem_filter.mp hmem
      exact ⟨it, hm.1, by simpa using hm.2⟩
  · intro b hb
    rw [postsByDay_spec] at hb
    by_cases hemp : (postsOnDay items k).isEmpty
    · rw [if_pos hemp] at hb; cases hb
    · rw [if_neg hemp] at hb
      injection hb with hb'
      subst hb'
      refine ⟨rfl, rfl, ?_⟩
      intro p hpe
      dsimp only
      rw [if_neg (by simpa using hpe)]

/-- Witness for C2: two posts scheduled on 2025-10-29 produce a bucket for
that day. -/
theorem calendarAggregation_witness :
    (postsByDay
        [demoPost (str "a") (some (str "2025-10-29T09:00")) (str "Approvato"),
         demoPost (str "b") (some (str "2025-10-29T18:00")) (str "Da correggere")]
        (str "2025-10-29")).isSome = true :=
  (calendarAggregation _ _).1.mpr
    ⟨demoPost (str "a") (some (str "2025-10-29T09:00")) (str "Approvato"),
     List.mem_cons_self _ _, by decide⟩

/-! ## Filter equivalence (C3) and day selection (C8) -/

/-- A chain of early-`false` returns is the conjunction of the negated
conditions with the final result. -/
theorem bool_chain (a b c d r : Bool) :
    (if a then false else if b then false else if c then false else if d then false else r)
      = (!a && (!b && (!c && (!d && r)))) := by
  cases a <;> cases b <;> cases c <;> cases d <;> simp

/-- C3 (amended): when the search query carries no leading or trailing
whitespace (`trim` is the identity on it) and no day is selected, the board
filter and the calendar filter agree on every post — the four shared
predicates are extensionally identical.  (With a query that trim changes,
the two views genuinely diverge; see the counterexample.) -/
theorem sharedPredicates_agree (f : Filters) (it : PostItem)
    (hq : trimStr f.query = f.query) (hsel : f.selectedDate = none) :
    boardPasses f it = calendarPasses f it := by
  simp only [boardPasses, calendarPasses, hsel, hq]
  rw [bool_chain]
  have h1 : (!(match f.statusFilter with
        | none => false
        | some s => decide (¬ it.status = s)))
      = (match f.statusFilter with
        | none => true
        | some s => decide (it.status = s)) := by
    rcases f.statusFilter with _ | s
    · rfl
    · simp [decide_not]
  have h2 : (!(match f.platformFilter with
        | none => false
        | some p => !(it.platforms p).enabled))
      = (match f.platformFilter with
        | none => true
        | some p => (it.platforms p).enabled) := by
    rcases f.platformFilter with _ | p
    · rfl
    · simp
  have h3 : (!(f.onlyScheduled && !jsTruthy it.scheduledAt))
      = (!f.onlyScheduled || jsTruthy it.scheduledAt) := by
    cases f.onlyScheduled <;> cases h : jsTruthy it.scheduledAt <;> simp [h]
  have hr : (if toLowerStr f.query = [] then true
        else containsSub (toLowerStr (searchHay it)) (toLowerStr f.query))
      = (if ¬ f.query = [] then
          containsSub (toLowerStr (searchHay it)) (toLowerStr f.query)
        else true) := by
    by_cases hqe : f.query = []
    · rw [if_pos (by simp [hqe, toLowerStr]), if_neg (fun hc => hc hqe)]
    · rw [if_neg (by simpa [toLowerStr] using hqe), if_pos hqe]
  rw [h1, h2, h3, hr]
  simp [Bool.and_assoc]

/-- Counterexample for C3 as stated: with the query `" a"` (leading space)
and an otherwise empty post, the board filter trims the query and matches
the `a` of `Bozza`, while the calendar filter searches for the raw `" a"`
and rejects the post. -/
theorem sharedPredicates_divergence :
    boardPasses ⟨str " a", none, none, false, none⟩ (demoPost (str "p") none (str "Bozza")) = true
    ∧ calendarPasses ⟨str " a", none, none, false, none⟩
        (demoPost (str "p") none (str "Bozza")) = false := by
  constructor
  · decide
  · decide

/-- Witness for C3 (amended) at a whitespace-free query. -/
theorem sharedPredicates_agree_witness :
    boardPasses ⟨str "a", none, none, false, none⟩ (demoPost (str "p") none (str "Bozza"))
      = calendarPasses ⟨str "a", none, none, false, none⟩
          (demoPost (str "p") none (str "Bozza")) :=
  sharedPredicates_agree _ _ (by decide) rfl

/-- C8: with no selected day the board filter ignores the day predicate; with
a selected day it passes a post exactly when the post passes the other four
predicates and has a schedule whose derived day key equals the selected day. -/
theorem daySelection (f : Filters) (it : PostItem) :
    (f.selectedDate = none →
      boardPasses f it = boardPasses { f with selectedDate := none } it)
    ∧ ∀ day : Str, f.selectedDate = some day → ¬ day = [] →
        (boardPasses f it = true ↔
          (boardPasses { f with selectedDate := none } it = true
            ∧ ∃ sch : Str, it.scheduledAt = some sch ∧ ¬ sch = [] ∧
                dateKeyFromLocalString sch = day)) := by
  constructor
  · intro hsel
    rw [show ({ f with selectedDate := none } : Filters) = f from by
      rcases f with ⟨q, sf, pf, os, sd⟩
      simp_all]
  · intro day hsel hday
    simp only [boardPasses, hsel]
    rw [bool_chain, bool_chain]
    have hD : decide (day = []) = false := by simp [hday]
    have hM : ((match it.scheduledAt with
          | none => true
          | some sch => (decide (sch = []) || decide (¬ dateKeyFromLocalString sch = day)))
            = false)
        ↔ (∃ sch : Str, it.scheduledAt = some sch ∧ ¬ sch = [] ∧
            dateKeyFromLocalString sch = day) := by
      rcases hsch : it.scheduledAt with _ | sch
      · simp
      · simp
    constructor
    · intro h
      simp only [Bool.and_eq_true, Bool.not_eq_true'] at h
      obtain ⟨hb1, hb2, hb3, hday4, hres⟩ := h
      refine ⟨?_, ?_⟩
      · simp only [Bool.and_eq_true, Bool.not_eq_true']
        exact ⟨hb1, hb2, hb3, trivial, hres⟩
      · apply hM.mp
        rw [hD] at hday4
        simpa using hday4
    · rintro ⟨h, hex⟩
      simp only [Bool.and_eq_true, Bool.not_eq_true'] at h ⊢
      obtain ⟨hb1, hb2, hb3, -, hres⟩ := h
      refine ⟨hb1, hb2, hb3, ?_, hres⟩
      rw [hD]
      simpa using hM.mpr hex

/-- Witness for C8 (the spec's exclusion scenario): with day 2025-10-29
selected, a post scheduled 2025-10-30 does not pass the board filter. -/
theorem daySelection_witness :
    boardPasses ⟨[], none, none, false, some (str "2025-10-29")⟩
        (demoPost (str "c") (some (str "2025-10-30T10:00")) (str "Bozza")) = false := by
  have h := (daySelection ⟨[], none, none, false, some (str "2025-10-29")⟩
      (demoPost (str "c") (some (str "2025-10-30T10:00")) (str "Bozza"))).2
      (str "2025-10-29") rfl (by decide)
  rw [Bool.eq_false_iff]
  intro hb
  rcases (h.mp hb).2 with ⟨sch, hsch, -, hkey⟩
  have hs : sch = str "2025-10-30T10:00" := by
    injection hsch with h'
    exact h'.symm
  subst hs
  exact absurd hkey (by decide)

/-! ## Calendar grid (C6) and month navigation (C7) -/

/-- Flattening the chunks gives back the original list (bounded recursion
on a fuel). -/
theorem chunk_flatten_fuel {α : Type} (n : Nat) (hn : n ≠ 0) :
    ∀ (len : Nat) (l : List α), l.length ≤ len → (chunk l n).flatten = l := by
  intro len
  induction len with
  | zero =>
    intro l h
    rcases l with _ | ⟨a, rest⟩
    · simp [chunk]
    · simp at h
  | succ len ih =>
    intro l hlen
    rcases l with _ | ⟨a, rest⟩
    · simp [chunk]
    · rcases n with _ | m
      · exact absurd rfl hn
      · rw [chunk, List.flatten_cons,
          ih _ (by simp only [List.length_drop, List.length_cons] at hlen ⊢; omega)]
        exact List.take_append_drop _ _

/-- Flattening the chunks gives back the original list (positive size). -/
theorem chunk_flatten {α : Type} (n : Nat) (l : List α) (hn : n ≠ 0) :
    (chunk l n).flatten = l :=
  chunk_flatten_fuel n hn l.length l (le_refl _)

/-- Chunking a list of length `(n+1) * k` by `n+1` gives `k` rows of
length `n + 1`. -/
theorem chunk_row_lengths {α : Type} (n : Nat) :
    ∀ (k : Nat) (l : List α), l.length = (n + 1) * k →
      (chunk l (n + 1)).map List.length = List.replicate k (n + 1) := by
  intro k
  induction k with
  | zero =>
    intro l hl
    rcases l with _ | ⟨a, rest⟩
    · simp [chunk]
    · simp at hl
  | succ k ih =>
    intro l hl
    rcases l with _ | ⟨a, rest⟩
    · exfalso
      rw [List.length_nil] at hl
      have hpos : 0 < (n + 1) * (k + 1) := Nat.mul_pos (Nat.succ_pos n) (Nat.succ_pos k)
      omega
    · rw [chunk, List.map_cons]
      have hPQ : (n + 1) * (k + 1) = (n + 1) * k + (n + 1) := by ring
      have h1 : ((a :: rest).take (n + 1)).length = n + 1 := by
        simp only [List.length_take]
        omega
      have h2 : ((a :: rest).drop (n + 1)).length = (n + 1) * k := by
        simp only [List.length_drop]
        omega
      rw [h1, ih _ h2]
      rfl

/-- `startOfWeek` steps back exactly `(weekday + 6) % 7` days. -/
theorem epochDay_startOfWeek (t : Int) :
    epochDay (startOfWeek t) = epochDay t - (getDay t + 6) % 7 := by
  simp only [startOfWeek, setHoursZero]
  have h1 : ∀ x : Int, epochDay (epochDay x * 1440) = epochDay x := by
    intro x
    simp only [epochDay]
    omega
  rw [h1, setDate_epochDay]
  ring

/-- `startOfWeek` always lands on a Monday. -/
theorem getDay_startOfWeek (t : Int) : getDay (startOfWeek t) = 1 := by
  have h2 := epochDay_startOfWeek t
  simp only [getDay] at h2 ⊢
  rw [h2]
  omega

/-- C6: the calendar grid is 6 rows of 7 cells; its flattened days are 42
consecutive days starting at `startOfWeek` of the first of the cursor's
month; that start is the Monday `(weekday + 6) % 7` days back from the
first; and `startOfWeek` of any Wednesday is a Monday. -/
theorem calendarGrid (cursor : Int)
    (hy : getFullYear cursor < 0 ∨ 100 ≤ getFullYear cursor) :
    (weeks cursor).map List.length = [7, 7, 7, 7, 7, 7]
    ∧ ((weeks cursor).flatten).map epochDay
        = (List.range 42).map (fun i =>
            epochDay (startOfWeek (jsDateCtor (getFullYear cursor) (getMonth cursor) 1 0 0))
              + Int.ofNat i)
    ∧ getDay (startOfWeek (jsDateCtor (getFullYear cursor) (getMonth cursor) 1 0 0)) = 1
    ∧ epochDay (startOfWeek (jsDateCtor (getFullYear cursor) (getMonth cursor) 1 0 0))
        = epochDay (jsDateCtor (getFullYear cursor) (getMonth cursor) 1 0 0)
          - (getDay (jsDateCtor (getFullYear cursor) (getMonth cursor) 1 0 0) + 6) % 7
    ∧ epochDay (jsDateCtor (getFullYear cursor) (getMonth cursor) 1 0 0)
        = daysFromCivil (getFullYear cursor) (getMonth cursor + 1) 1
    ∧ ∀ t : Int, getDay t = 3 → getDay (startOfWeek t) = 1 := by
  have hg := getters_valid cursor
  refine ⟨?_, ?_, getDay_startOfWeek _, epochDay_startOfWeek _, ?_,
    fun t _ => getDay_startOfWeek t⟩
  · simp only [weeks]
    have hlen : ((List.range 42).map (fun i =>
        setDate (startOfWeek (jsDateCtor (getFullYear cursor) (getMonth cursor) 1 0 0))
          (getDate (startOfWeek (jsDateCtor (getFullYear cursor) (getMonth cursor) 1 0 0))
            + Int.ofNat i))).length = (6 + 1) * 6 := by
      rw [List.length_map, List.length_range]
    exact (chunk_row_lengths 6 6 _ hlen).trans rfl
  · simp only [weeks]
    rw [chunk_flatten 7 _ (by omega)]
    rw [List.map_map]
    apply List.map_congr_left
    intro i _
    simp only [Function.comp_apply]
    rw [setDate_epochDay]
    ring
  · simp only [jsDateCtor]
    rw [if_neg (by rcases hy with h | h <;> omega)]
    rw [rawMakeDate_epochDay _ _ _ _ _ (by norm_num) (by norm_num)]
    have h12 : (getFullYear cursor * 12 + getMonth cursor) / 12 = getFullYear cursor := by
      omega
    have h12' : (getFullYear cursor * 12 + getMonth cursor) % 12 = getMonth cursor := by
      omega
    rw [h12, h12']
    ring

/-- Witness for C6 at the October 2025 cursor. -/
theorem calendarGrid_witness :
    (weeks (jsDateCtor 2025 9 1 0 0)).map List.length = [7, 7, 7, 7, 7, 7] :=
  (calendarGrid (jsDateCtor 2025 9 1 0 0) (by decide)).1

/-- C7 (amended): `addMonths` always lands on day 1 of a month (navigation
never produces an invalid date), and whenever the cursor's day-of-month is
at most 28 and the target month's year is not in 0..99 (where the `Date`
constructor's two-digit-year rule interferes), the result is day 1 of the
month exactly `delta` months away. -/
theorem addMonths_spec (t delta : Int) :
    getDate (addMonths t delta) = 1
    ∧ (getDate t ≤ 28 →
        ((getFullYear t * 12 + (getMonth t + delta)) / 12 < 0
          ∨ 100 ≤ (getFullYear t * 12 + (getMonth t + delta)) / 12) →
        getFullYear (addMonths t delta) * 12 + getMonth (addMonths t delta)
          = getFullYear t * 12 + getMonth t + delta) := by
  constructor
  · simp only [addMonths]
    exact (jsDateCtor_first _ _).2
  · intro hd hy
    have hciv := setMonth_civil t (getMonth t + delta) hd
    have hy' : getFullYear (setMonth t (getMonth t + delta))
        = (getFullYear t * 12 + (getMonth t + delta)) / 12 := by
      have hdef : getFullYear (setMonth t (getMonth t + delta))
          = (civilFromDays (epochDay (setMonth t (getMonth t + delta)))).1 := rfl
      rw [hdef, hciv]
    have hm' : getMonth (setMonth t (getMonth t + delta))
        = (getFullYear t * 12 + (getMonth t + delta)) % 12 + 1 - 1 := by
      have hdef : getMonth (setMonth t (getMonth t + delta))
          = (civilFromDays (epochDay (setMonth t (getMonth t + delta)))).2.1 - 1 := rfl
      rw [hdef, hciv]
    simp only [addMonths]
    rw [(jsDateCtor_first _ _).1, hy', hm']
    split_ifs with hcase
    · exfalso
      rcases hy with h | h <;> omega
    · omega

set_option maxRecDepth 10000 in
/-- Counterexample for C7 as stated: shifting the cursor date 2025-01-31 by
one month lands on 2025-03-01 — February is skipped. -/
theorem addMonths_day31_skips :
    getFullYear (addMonths (jsDateCtor 2025 0 31 0 0) 1) = 2025
    ∧ getMonth (addMonths (jsDateCtor 2025 0 31 0 0) 1) = 2 := by
  constructor
  · decide
  · decide

/-- Witness for C7 (amended): from the first of October 2025, one month
forward is exactly November 2025. -/
theorem addMonths_spec_witness :
    getFullYear (addMonths (jsDateCtor 2025 9 1 0 0) 1) * 12
        + getMonth (addMonths (jsDateCtor 2025 9 1 0 0) 1)
      = getFullYear (jsDateCtor 2025 9 1 0 0) * 12
        + getMonth (jsDateCtor 2025 9 1 0 0) + 1 :=
  (addMonths_spec (jsDateCtor 2025 9 1 0 0) 1).2 (by decide) (by decide)

/-! ## Decimal printing and parsing round-trip (infrastructure for C1) -/

theorem digitChar_val (n : Nat) (h : n < 10) : (digitChar n).toNat = 48 + n := by
  interval_cases n <;> decide

theorem digitChar_isDigit (n : Nat) (h : n < 10) : (digitChar n).isDigit = true := by
  interval_cases n <;> decide

theorem digitChar_not_ws (n : Nat) (h : n < 10) : (digitChar n).isWhitespace = false := by
  interval_cases n <;> decide

theorem digitChar_ne (n : Nat) (h : n < 10) :
    digitChar n ≠ 'T' ∧ digitChar n ≠ '-' ∧ digitChar n ≠ ':' ∧ digitChar n ≠ '+' := by
  interval_cases n <;> refine ⟨by decide, by decide, by decide, by decide⟩

/-- `natDigitsF` does not depend on the fuel, as long as it is sufficient. -/
theorem natDigitsF_irrel : ∀ (f f' n : Nat), n < f → n < f' → natDigitsF f n = natDigitsF f' n := by
  intro f
  induction f with
  | zero => intro f' n h _; exact absurd h (Nat.not_lt_zero n)
  | succ f ih =>
    intro f' n h h'
    rcases f' with _ | f''
    · exact absurd h' (Nat.not_lt_zero n)
    · simp only [natDigitsF]
      split_ifs with hn
      · rfl
      · rw [ih f'' (n / 10) (by omega) (by omega)]

/-- Unfolding equation for `natDigits`. -/
theorem natDigits_eq (n : Nat) :
    natDigits n = if n < 10 then [digitChar n]
      else natDigits (n / 10) ++ [digitChar (n % 10)] := by
  show natDigitsF (n + 1) n = _
  simp only [natDigitsF]
  split_ifs with h
  · rfl
  · rw [natDigitsF_irrel n (n / 10 + 1) (n / 10) (by omega) (by omega)]
    rfl

/-- Every character of a printed number is a decimal digit character. -/
theorem natDigits_mem (n : Nat) : ∀ c ∈ natDigits n, ∃ k, k < 10 ∧ c = digitChar k := by
  induction n using Nat.strong_induction_on with
  | _ n ih =>
    rw [natDigits_eq]
    split_ifs with h
    · intro c hc
      rw [List.mem_singleton] at hc
      exact ⟨n, h, hc⟩
    · intro c hc
      rcases List.mem_append.mp hc with h1 | h2
      · exact ih (n / 10) (by omega) c h1
      · rw [List.mem_singleton] at h2
        exact ⟨n % 10, by omega, h2⟩

theorem natDigits_ne_nil (n : Nat) : natDigits n ≠ [] := by
  rw [natDigits_eq]
  split_ifs <;> simp

theorem natFromDigits_snoc (xs : Str) (c : Char) :
    natFromDigits (xs ++ [c]) = natFromDigits xs * 10 + (c.toNat - 48) := by
  simp [natFromDigits, List.foldl_append]

/-- Parsing the decimal print of a number recovers the number. -/
theorem natFromDigits_natDigits (n : Nat) : natFromDigits (natDigits n) = n := by
  induction n using Nat.strong_induction_on with
  | _ n ih =>
    rw [natDigits_eq]
    split_ifs with h
    · have hv := digitChar_val n h
      simp [natFromDigits]
      omega
    · rw [natFromDigits_snoc, ih (n / 10) (by omega)]
      have hv := digitChar_val (n % 10) (by omega)
      omega

/-- Leading zero characters do not change the parsed value. -/
theorem natFromDigits_zeros (j : Nat) (s : Str) :
    natFromDigits (List.replicate j '0' ++ s) = natFromDigits s := by
  induction j with
  | zero => rfl
  | succ j ihj =>
    rw [List.replicate_succ, List.cons_append]
    show List.foldl _ ((0 : Nat) * 10 + ('0'.toNat - 48)) _ = _
    have h0 : (0 : Nat) * 10 + ('0'.toNat - 48) = 0 := by decide
    rw [h0]
    exact ihj

theorem natFromDigits_padStart2 (s : Str) :
    natFromDigits (padStart2 s) = natFromDigits s := by
  simp only [padStart2]
  split_ifs with h
  · exact natFromDigits_zeros _ s
  · rfl

theorem padStart2_mem (s : Str) (hs : ∀ c ∈ s, ∃ k, k < 10 ∧ c = digitChar k) :
    ∀ c ∈ padStart2 s, ∃ k, k < 10 ∧ c = digitChar k := by
  intro c hc
  simp only [padStart2] at hc
  split_ifs at hc
  · rcases List.mem_append.mp hc with h1 | h2
    · exact ⟨0, by norm_num, List.eq_of_mem_replicate h1⟩
    · exact hs c h2
  · exact hs c hc

theorem padStart2_ne_nil (s : Str) (h : s ≠ []) : padStart2 s ≠ [] := by
  simp only [padStart2]
  split_ifs with hlen
  · simp [h]
  · exact h

/-- A list of digit characters contains none of the separator characters. -/
theorem digit_list_not_special (ds : Str) (hd : ∀ c ∈ ds, ∃ k, k < 10 ∧ c = digitChar k) :
    'T' ∉ ds ∧ '-' ∉ ds ∧ ':' ∉ ds := by
  refine ⟨?_, ?_, ?_⟩
  · intro hm
    obtain ⟨k, hk, he⟩ := hd _ hm
    exact (digitChar_ne k hk).1 he.symm
  · intro hm
    obtain ⟨k, hk, he⟩ := hd _ hm
    exact (digitChar_ne k hk).2.1 he.symm
  · intro hm
    obtain ⟨k, hk, he⟩ := hd _ hm
    exact (digitChar_ne k hk).2.2.1 he.symm

theorem takeWhile_digits (ds : Str) (hd : ∀ c ∈ ds, ∃ k, k < 10 ∧ c = digitChar k) :
    ds.takeWhile Char.isDigit = ds := by
  induction ds with
  | nil => rfl
  | cons c rest ih =>
    obtain ⟨k, hk, rfl⟩ := hd c (List.mem_cons_self c rest)
    rw [List.takeWhile_cons, if_pos (digitChar_isDigit k hk),
      ih (fun c hc => hd c (List.mem_cons_of_mem _ hc))]

/-- `parseInt` on a non-empty digit string returns its value. -/
theorem jsParseInt_digitList (ds : Str) (hne : ds ≠ [])
    (hd : ∀ c ∈ ds, ∃ k, k < 10 ∧ c = digitChar k) :
    jsParseInt ds = some ((natFromDigits ds : Int)) := by
  rcases ds with _ | ⟨c, rest⟩
  · exact absurd rfl hne
  obtain ⟨k, hk, hck⟩ := hd c (List.mem_cons_self c rest)
  have hws : c.isWhitespace = false := by rw [hck]; exact digitChar_not_ws k hk
  have hminus : ¬ c = '-' := by rw [hck]; exact (digitChar_ne k hk).2.1
  have hplus : ¬ c = '+' := by rw [hck]; exact (digitChar_ne k hk).2.2.2
  simp only [jsParseInt, List.dropWhile_cons, hws, Bool.false_eq_true, if_false,
    if_neg hminus, if_neg hplus, parseLeadingDigits]
  rw [takeWhile_digits _ hd]
  rw [if_neg hne]
  rfl

theorem splitCh_no_sep (sep : Char) : ∀ (xs : Str), sep ∉ xs → splitCh sep xs = [xs] := by
  intro xs
  induction xs with
  | nil => intro _; rfl
  | cons c rest ih =>
    intro h
    have hcs : ¬ c = sep := fun hc => h (by rw [hc]; exact List.mem_cons_self sep rest)
    have hrest : sep ∉ rest := fun hm => h (List.mem_cons_of_mem c hm)
    simp only [splitCh, if_neg hcs, ih hrest]

theorem splitCh_append (sep : Char) : ∀ (xs ys : Str), sep ∉ xs →
    splitCh sep (xs ++ sep :: ys) = xs :: splitCh sep ys := by
  intro xs
  induction xs with
  | nil =>
    intro ys _
    simp [splitCh]
  | cons c rest ih =>
    intro ys h
    have hcs : ¬ c = sep := fun hc => h (by rw [hc]; exact List.mem_cons_self sep rest)
    have hrest : sep ∉ rest := fun hm => h (List.mem_cons_of_mem c hm)
    simp only [List.cons_append, splitCh, if_neg hcs, List.append_eq, ih ys hrest]

theorem jsOrNum_some_of_ne (v dflt : Int) (h : v ≠ 0) : jsOrNum (some v) dflt = v := by
  simp [jsOrNum, h]

theorem jsOrNum_some_zero (v : Int) : jsOrNum (some v) 0 = v := by
  rcases eq_or_ne v 0 with h | h
  · simp [jsOrNum, h]
  · simp [jsOrNum, h]

/-- The canonical `YYYY-MM-DD` print of a civil date (month and day 2-padded,
the year printed as-is), shaped exactly like the output of `dateKeyLocal`. -/
def dateStrOf (y m d : Nat) : Str :=
  natDigits y ++ '-' :: padStart2 (natDigits m) ++ '-' :: padStart2 (natDigits d)

/-- The canonical `hh:mm` print of a time of day. -/
def timeStrOf (hh mi : Nat) : Str :=
  padStart2 (natDigits hh) ++ ':' :: padStart2 (natDigits mi)

theorem intToStr_ofNat (n : Nat) : intToStr (n : Int) = natDigits n := by
  have hnn : ¬ (n : Int) < 0 := (Int.natCast_nonneg n).not_lt
  rw [intToStr, if_neg hnn]
  rfl

theorem dateStrOf_no_T (y m d : Nat) : 'T' ∉ dateStrOf y m d := by
  intro hmem
  simp only [dateStrOf, List.append_assoc, List.cons_append, List.mem_append,
    List.mem_cons] at hmem
  rcases hmem with h1 | h2 | h2' | h3 | h3'
  · exact (digit_list_not_special _ (natDigits_mem y)).1 h1
  · exact absurd h2 (by decide)
  · exact (digit_list_not_special _ (padStart2_mem _ (natDigits_mem m))).1 h2'
  · exact absurd h3 (by decide)
  · exact (digit_list_not_special _ (padStart2_mem _ (natDigits_mem d))).1 h3'

theorem timeStrOf_no_T (hh mi : Nat) : 'T' ∉ timeStrOf hh mi := by
  intro hmem
  simp only [timeStrOf, List.mem_append, List.mem_cons] at hmem
  rcases hmem with h1 | h2 | h3
  · exact (digit_list_not_special _ (padStart2_mem _ (natDigits_mem hh))).1 h1
  · exact absurd h2 (by decide)
  · exact (digit_list_not_special _ (padStart2_mem _ (natDigits_mem mi))).1 h3

/-- `split("T")` on a composed date-time string gives the two parts. -/
theorem splitT_composed (y m d hh mi : Nat) :
    splitCh 'T' (dateStrOf y m d ++ 'T' :: timeStrOf hh mi)
      = [dateStrOf y m d, timeStrOf hh mi] := by
  rw [splitCh_append 'T' _ _ (dateStrOf_no_T y m d),
    splitCh_no_sep 'T' _ (timeStrOf_no_T hh mi)]

/-- `split("-")` on the date part gives the three fields. -/
theorem splitDash_dateStrOf (y m d : Nat) :
    splitCh '-' (dateStrOf y m d)
      = [natDigits y, padStart2 (natDigits m), padStart2 (natDigits d)] := by
  have h1 : '-' ∉ natDigits y := (digit_list_not_special _ (natDigits_mem y)).2.1
  have h2 : '-' ∉ padStart2 (natDigits m) :=
    (digit_list_not_special _ (padStart2_mem _ (natDigits_mem m))).2.1
  have h3 : '-' ∉ padStart2 (natDigits d) :=
    (digit_list_not_special _ (padStart2_mem _ (natDigits_mem d))).2.1
  have key : splitCh '-' (natDigits y ++ '-' :: (padStart2 (natDigits m)
      ++ '-' :: padStart2 (natDigits d)))
      = [natDigits y, padStart2 (natDigits m), padStart2 (natDigits d)] := by
    rw [splitCh_append '-' _ _ h1, splitCh_append '-' _ _ h2, splitCh_no_sep '-' _ h3]
  simp only [dateStrOf, List.append_assoc, List.cons_append]
  exact key

/-- `split(":")` on the time part gives the two fields. -/
theorem splitColon_timeStrOf (hh mi : Nat) :
    splitCh ':' (timeStrOf hh mi)
      = [padStart2 (natDigits hh), padStart2 (natDigits mi)] := by
  have h1 : ':' ∉ padStart2 (natDigits hh) :=
    (digit_list_not_special _ (padStart2_mem _ (natDigits_mem hh))).2.2
  have h2 : ':' ∉ padStart2 (natDigits mi) :=
    (digit_list_not_special _ (padStart2_mem _ (natDigits_mem mi))).2.2
  rw [timeStrOf, splitCh_append ':' _ _ h1, splitCh_no_sep ':' _ h2]

/-- `parseInt` on a printed (possibly 2-padded) number recovers the number. -/
theorem jsParseInt_pad (n : Nat) :
    jsParseInt (padStart2 (natDigits n)) = some ((n : Int)) := by
  rw [jsParseInt_digitList _ (padStart2_ne_nil _ (natDigits_ne_nil n))
    (padStart2_mem _ (natDigits_mem n))]
  rw [natFromDigits_padStart2, natFromDigits_natDigits]

theorem jsParseInt_natDigits (n : Nat) :
    jsParseInt (natDigits n) = some ((n : Int)) := by
  rw [jsParseInt_digitList _ (natDigits_ne_nil n) (natDigits_mem n),
    natFromDigits_natDigits]

/-- `parseLocalDateTime` on a composed `YYYY-MM-DDThh:mm` string builds the
corresponding local date. -/
theorem parseLocal_composed (y m d hh mi : Nat) :
    parseLocalDateTime (dateStrOf y m d ++ 'T' :: timeStrOf hh mi)
      = some (jsDateCtor (y : Int) (jsOrNum (some ((m : Int))) 1 - 1)
          (jsOrNum (some ((d : Int))) 1) (jsOrNum (some ((hh : Int))) 0)
          (jsOrNum (some ((mi : Int))) 0)) := by
  have hne : dateStrOf y m d ++ 'T' :: timeStrOf hh mi ≠ [] := by
    simp [dateStrOf]
  rw [parseLocalDateTime, if_neg hne]
  simp only [splitT_composed, List.headD, List.drop, splitDash_dateStrOf,
    splitColon_timeStrOf, List.map_cons, List.map_nil,
    jsParseInt_natDigits, jsParseInt_pad]

/-- C1: for every actual calendar date with a 4-digit year not beginning with
a zero digit (1000 ≤ y ≤ 9999) and a valid time of day, `dateKeyFromLocalString`
on the composed `YYYY-MM-DDThh:mm` string returns exactly its `YYYY-MM-DD`
date portion, independent of the time of day. -/
theorem dateKey_roundtrip (y m d hh mi : Nat)
    (hy1 : 1000 ≤ y) (hy2 : y ≤ 9999)
    (hm1 : 1 ≤ m) (hm2 : m ≤ 12)
    (hd1 : 1 ≤ d) (hd2 : (d : Int) ≤ daysInMonth (y : Int) (m : Int))
    (hhh : hh ≤ 23) (hmim : mi ≤ 59) :
    dateKeyFromLocalString (dateStrOf y m d ++ 'T' :: timeStrOf hh mi)
      = dateStrOf y m d := by
  simp only [dateKeyFromLocalString]
  rw [parseLocal_composed]
  rw [jsOrNum_some_of_ne _ _ (by omega : ((m : Int)) ≠ 0),
    jsOrNum_some_of_ne _ _ (by omega : ((d : Int)) ≠ 0),
    jsOrNum_some_zero, jsOrNum_some_zero]
  have hctor : jsDateCtor (y : Int) ((m : Int) - 1) (d : Int) (hh : Int) (mi : Int)
      = rawMakeDate (y : Int) ((m : Int) - 1) (d : Int) (hh : Int) (mi : Int) := by
    simp only [jsDateCtor]
    rw [if_neg (by omega : ¬ ((0 : Int) ≤ (y : Int) ∧ (y : Int) ≤ 99))]
  rw [hctor]
  have h0 : (0 : Int) ≤ (hh : Int) * 60 + (mi : Int) := by omega
  have h1 : (hh : Int) * 60 + (mi : Int) < 1440 := by omega
  have hciv : civilFromDays (epochDay
        (rawMakeDate (y : Int) ((m : Int) - 1) (d : Int) (hh : Int) (mi : Int)))
      = ((y : Int), (m : Int), (d : Int)) := by
    rw [rawMakeDate_epochDay _ _ _ _ _ h0 h1]
    have h12 : ((y : Int) * 12 + ((m : Int) - 1)) / 12 = (y : Int) := by omega
    have h12b : ((y : Int) * 12 + ((m : Int) - 1)) % 12 + 1 = (m : Int) := by omega
    rw [h12, h12b]
    have hlin := daysFromCivil_day_linear (y : Int) (m : Int) (d : Int)
    rw [show daysFromCivil (y : Int) (m : Int) 1 + ((d : Int) - 1)
        = daysFromCivil (y : Int) (m : Int) (d : Int) from by omega]
    exact civilFromDays_daysFromCivil _ _ _ (by omega) (by omega) (by omega) hd2
  have hY : getFullYear (rawMakeDate (y : Int) ((m : Int) - 1) (d : Int) (hh : Int) (mi : Int))
      = (y : Int) := by
    simp only [getFullYear, hciv]
  have hM : getMonth (rawMakeDate (y : Int) ((m : Int) - 1) (d : Int) (hh : Int) (mi : Int)) + 1
      = (m : Int) := by
    simp only [getMonth, hciv]
    show (m : Int) - 1 + 1 = (m : Int)
    omega
  have hD : getDate (rawMakeDate (y : Int) ((m : Int) - 1) (d : Int) (hh : Int) (mi : Int))
      = (d : Int) := by
    simp only [getDate, hciv]
  simp only [dateKeyLocal, Option.map_some', jsNumToStr]
  rw [hY, hM, hD, intToStr_ofNat, intToStr_ofNat, intToStr_ofNat]
  rfl

set_option maxRecDepth 10000 in
/-- C1, counterexample to the literal claim: the key of a 4-digit year below
1000 loses its leading zero, because the year component of `dateKeyLocal` is
not 2-padded (and `String(500)` is `"500"`). -/
theorem dateKey_leading_zero_year :
    dateKeyFromLocalString (str "0500-03-01T00:30") = str "500-03-01" ∧
    dateKeyFromLocalString (str "0500-03-01T00:30") ≠ str "0500-03-01" := by
  refine ⟨by decide, by decide⟩

set_option maxRecDepth 10000 in
theorem dateKey_roundtrip_witness :
    dateKeyFromLocalString (str "2025-03-01T00:30") = str "2025-03-01" := by
  have h := dateKey_roundtrip 2025 3 1 0 30 (by norm_num) (by norm_num) (by norm_num)
    (by norm_num) (by norm_num) (by decide) (by norm_num) (by norm_num)
  have e1 : str "2025-03-01T00:30" = dateStrOf 2025 3 1 ++ 'T' :: timeStrOf 0 30 := by decide
  have e2 : dateStrOf 2025 3 1 = str "2025-03-01" := by decide
  rw [e1, h, e2]
